import Mathlib

/-!
Shallow embedding of the scheduling-agent repository, centered on
`src/services/scheduling_engine.py` and `src/services/calendar_service.py`.

Modelling conventions:
* an instant (Python `datetime`, UTC) is an `Int`, counted in minutes since the epoch;
* a calendar date (Python `date`) is an `Int` day index, with `dateOf t = t.fdiv 1440`;
* an IANA timezone is modelled as a fixed offset in minutes (DST transitions are out of
  scope for the verified properties); `localize` + `astimezone(UTC)` is `t - offset`,
  and `astimezone(tz)` of a UTC instant is `t + offset`;
* `date.weekday()` is `(d + 3) % 7` with Monday = 0 (day 0, 1970-01-01, was a Thursday);
* Python `time.max` (23:59:59.999999) becomes minute 1439 of the day at this resolution;
* scores are `Int`: every adjustment in the source is an integer, so float arithmetic
  is exact there.
-/

/-- UTC calendar date (day index) of an instant; models `datetime.date()`. -/
def dateOf (t : Int) : Int := t.fdiv 1440

/-- Python `date.weekday()`: Monday = 0. Day 0 of the epoch was a Thursday, hence +3. -/
def weekday (d : Int) : Int := (d + 3).emod 7

/-- Local wall-clock hour of a UTC instant under a fixed-offset timezone;
models `instant.astimezone(tz).hour`. -/
def localHour (t : Int) (tzOffset : Int) : Int := ((t + tzOffset).fmod 1440).fdiv 60

/-- Local calendar date of a UTC instant under a fixed-offset timezone;
models `instant.astimezone(tz).date()`. -/
def localDate (t : Int) (tzOffset : Int) : Int := (t + tzOffset).fdiv 1440

/-- `models/entities.py` `Candidate` (the fields the engine reads). -/
structure Candidate where
  id : String
  location_timezone : Int
  start_date : Int
deriving DecidableEq

/-- `models/entities.py` `Manager` (the fields the engine reads). -/
structure Manager where
  id : String
  location_timezone : Int
deriving DecidableEq

/-- The two calendar sources of `models/entities.py` `CalendarEvent.calendar_type`. -/
inductive CalendarType where
  | apexon : CalendarType
  | client : CalendarType
deriving DecidableEq

/-- `models/entities.py` `CalendarEvent`; `start`/`stop` are stored in UTC minutes
(the service converts every event with `astimezone(pytz.UTC)`); `stop` models the
source field named `end`, which is a Lean keyword. -/
structure CalendarEvent where
  calendar_type : CalendarType
  owner_id : String
  start : Int
  stop : Int
deriving DecidableEq

/-- `models/entities.py` `TimeSlot`; `stop` models the source field named `end`. -/
structure TimeSlot where
  start : Int
  stop : Int
  participants : List String
  source : Option String
deriving DecidableEq

/-- `models/entities.py` `MeetingRequest`. -/
structure MeetingRequest where
  candidate_id : String
  participants : List String
  duration_minutes : Int
  deadline_date : Int
  meeting_type : String
deriving DecidableEq

/-- `models/entities.py` `MeetingProposal`. -/
structure MeetingProposal where
  time_slot : TimeSlot
  meeting_type : String
  score : Int
  constraints_violated : List String
deriving DecidableEq

/-- The directory collaborator (`TalentRecruitClient`): the two lookups the engine uses. -/
structure DataClient where
  get_candidate_by_id : String → Option Candidate
  get_manager_by_id : String → Option Manager

/-- The calendar store `CalendarService._calendar_events`: a dict from user id to that
user's events, with `dict.get(user_id, [])` semantics. -/
abbrev CalendarStore := String → List CalendarEvent

/-- `calendar_service.py` lines 102-105: the Apexon events of one user. -/
def get_apexon_calendar_events (cal : CalendarStore) (user_id : String) : List CalendarEvent :=
  (cal user_id).filter (fun e => decide (e.calendar_type = CalendarType.apexon))

/-- `calendar_service.py` lines 107-110: the Client events of one user. -/
def get_client_calendar_events (cal : CalendarStore) (user_id : String) : List CalendarEvent :=
  (cal user_id).filter (fun e => decide (e.calendar_type = CalendarType.client))

/-- One step of the apexon-merge loop (`calendar_service.py` lines 153-165): append the
apexon event to the busy list unless it overlaps an interval already in the busy list
(which at that point holds every client interval and every previously kept apexon one). -/
def addApexonEvent (busy : List (Int × Int)) (e : CalendarEvent) : List (Int × Int) :=
  if busy.any (fun c => decide (¬ (e.stop ≤ c.1 ∨ e.start ≥ c.2))) then busy
  else busy ++ [(e.start, e.stop)]

/-- `calendar_service.py` lines 146-165: the priority merge of the two busy sources.
Client intervals are added first, as-is; each apexon interval is then added by
`addApexonEvent`. -/
def mergeBusy (clientEvents apexonEvents : List CalendarEvent) : List (Int × Int) :=
  apexonEvents.foldl addApexonEvent (clientEvents.map (fun e => (e.start, e.stop)))

/-- Order on busy intervals by start instant (`busy_slots.sort(key=lambda x: x[0])`). -/
def busyLE (a b : Int × Int) : Prop := a.1 ≤ b.1

instance : DecidableRel busyLE := fun a b => inferInstanceAs (Decidable (a.1 ≤ b.1))

instance : IsTotal (Int × Int) busyLE := ⟨fun a b => le_total a.1 b.1⟩

instance : IsTrans (Int × Int) busyLE := ⟨fun _ _ _ h1 h2 => le_trans h1 h2⟩

/-- `calendar_service.py` line 168: sort the merged busy list by start time
(Python sort is stable; insertion sort with a total preorder is stable too). -/
def sortBusy (l : List (Int × Int)) : List (Int × Int) := List.insertionSort busyLE l

/-- `calendar_service.py` lines 222-231: the gaps between consecutive busy intervals. -/
def middleGaps : List (Int × Int) → List (Int × Int)
  | a :: b :: rest => (if a.2 < b.1 then [(a.2, b.1)] else []) ++ middleGaps (b :: rest)
  | _ => []

/-- `calendar_service.py` lines 204-239: the free gaps of one clamped day window given
the clipped busy list: the whole window when no busy interval touches the day, else the
gap before the first busy interval, the gaps between consecutive busy intervals, and the
gap after the last one. -/
def dayGaps (slotStart slotEnd : Int) (dayBusy : List (Int × Int)) : List (Int × Int) :=
  match dayBusy with
  | [] => [(slotStart, slotEnd)]
  | b :: rest =>
    (if slotStart < b.1 then [(slotStart, b.1)] else []) ++ middleGaps (b :: rest) ++
      (if ((b :: rest).getLast (by simp)).2 < slotEnd
        then [(((b :: rest).getLast (by simp)).2, slotEnd)] else [])

/-- Uniform recursion equivalent to `dayGaps` (proved below), used for reasoning:
walk the busy list carrying the right edge reached so far. -/
def gapsGo (slotEnd : Int) : Int → List (Int × Int) → List (Int × Int)
  | cur, [] => if cur < slotEnd then [(cur, slotEnd)] else []
  | cur, b :: rest => (if cur < b.1 then [(cur, b.1)] else []) ++ gapsGo slotEnd b.2 rest

/-- Day indices from `a` to `b` inclusive; models the `while current_date <= end_date`
loops that step one day at a time. -/
def dayRange (a b : Int) : List Int :=
  (List.range (b - a + 1).toNat).map (fun (i : Nat) => a + (i : Int))

/-- `calendar_service.py` lines 178-241, one iteration: the free slots contributed by
one calendar day. Weekends are skipped; the local business window is converted to UTC,
clamped to the requested range, and the busy intervals clipped to it are subtracted. -/
def dayFreeSlots (user_id : String) (tz : Int) (business_hours_start business_hours_end : Int)
    (rangeStart rangeEnd : Int) (busySorted : List (Int × Int)) (d : Int) : List TimeSlot :=
  if weekday d < 5 then
    let day_start_utc := d * 1440 + business_hours_start * 60 - tz
    let day_end_utc := d * 1440 + business_hours_end * 60 - tz
    let slot_start := max day_start_utc rangeStart
    let slot_end := min day_end_utc rangeEnd
    if slot_start < slot_end then
      let day_busy := (busySorted.filter
          (fun bs => decide (bs.1 < slot_end) && decide (bs.2 > slot_start))).map
        (fun bs => (max bs.1 slot_start, min bs.2 slot_end))
      (dayGaps slot_start slot_end day_busy).map
        (fun g => TimeSlot.mk g.1 g.2 [user_id] (some "merged_availability"))
    else []
  else []

/-- `calendar_service.py` lines 112-243 `get_merged_availability`: unknown user yields
`[]`; otherwise merge the two busy sources with client priority, sort, and subtract from
each weekday's clamped business window. -/
def get_merged_availability (dc : DataClient) (cal : CalendarStore) (user_id : String)
    (start_date end_date : Int) (business_hours_start business_hours_end : Int) :
    List TimeSlot :=
  match dc.get_manager_by_id user_id with
  | none => []
  | some manager =>
    let busySorted := sortBusy (mergeBusy (get_client_calendar_events cal user_id)
      (get_apexon_calendar_events cal user_id))
    (dayRange (dateOf start_date) (dateOf end_date)).flatMap
      (dayFreeSlots user_id manager.location_timezone business_hours_start
        business_hours_end start_date end_date busySorted)

/-- `scheduling_engine.py` lines 131-173 `_get_candidate_availability`: one slot per
local weekday, covering the full business window clamped to the requested range; no
calendar source is consulted. -/
def get_candidate_availability (candidate : Candidate) (start_datetime end_datetime : Int)
    (business_hours_start business_hours_end : Int) : List TimeSlot :=
  (dayRange (dateOf start_datetime) (dateOf end_datetime)).filterMap (fun d =>
    if weekday d < 5 then
      let slot_start :=
        max (d * 1440 + business_hours_start * 60 - candidate.location_timezone)
          start_datetime
      let slot_end :=
        min (d * 1440 + business_hours_end * 60 - candidate.location_timezone)
          end_datetime
      if slot_start < slot_end then
        some (TimeSlot.mk slot_start slot_end [candidate.id]
          (some "candidate_business_hours"))
      else none
    else none)

/-- `scheduling_engine.py` lines 196-220 `_intersect_slots`: every pair with a non-empty
overlap yields a slot whose participants are the union of the pair (Python builds
`list(set(...))`, whose iteration order is unspecified; `dedup` is one deterministic
enumeration of that set). -/
def intersect_slots (slots1 slots2 : List TimeSlot) : List TimeSlot :=
  slots1.flatMap (fun slot1 => slots2.filterMap (fun slot2 =>
    let overlap_start := max slot1.start slot2.start
    let overlap_stop := min slot1.stop slot2.stop
    if overlap_start < overlap_stop then
      some (TimeSlot.mk overlap_start overlap_stop
        ((slot1.participants ++ slot2.participants).dedup) (some "intersection"))
    else none))

/-- The `while current_start + duration_delta <= slot.end` loop of
`scheduling_engine.py` lines 232-240, with explicit fuel: for a positive duration the
loop runs fewer than `slot.end - slot.start` times, so enough fuel makes the recursion
exact; for duration ≤ 0 the source loop never exits, which shows up here as the result
growing with every unit of fuel. -/
def splitGo (durationMinutes slotEnd : Int) (participants : List String)
    (source : Option String) : Nat → Int → List TimeSlot
  | 0, _ => []
  | fuel + 1, current_start =>
    if current_start + durationMinutes ≤ slotEnd then
      TimeSlot.mk current_start (current_start + durationMinutes) participants source ::
        splitGo durationMinutes slotEnd participants source fuel
          (current_start + durationMinutes)
    else []

/-- The per-slot body of `_split_slots_by_duration`, with fuel sufficient for every
positive duration. -/
def splitSlot (durationMinutes : Int) (slot : TimeSlot) : List TimeSlot :=
  splitGo durationMinutes slot.stop slot.participants slot.source
    ((slot.stop - slot.start).toNat + 1) slot.start

/-- `scheduling_engine.py` lines 222-242 `_split_slots_by_duration`. -/
def split_slots_by_duration (slots : List TimeSlot) (durationMinutes : Int) :
    List TimeSlot :=
  slots.flatMap (splitSlot durationMinutes)

/-- `scheduling_engine.py` lines 175-194 `_find_overlapping_slots`; the manager
availabilities dict is an insertion-ordered association list. -/
def find_overlapping_slots (candidate_slots : List TimeSlot)
    (manager_availabilities : List (String × List TimeSlot)) (duration_minutes : Int) :
    List TimeSlot :=
  match manager_availabilities with
  | [] => split_slots_by_duration candidate_slots duration_minutes
  | _ :: _ =>
    split_slots_by_duration
      (manager_availabilities.foldl (fun overlapping p => intersect_slots overlapping p.2)
        candidate_slots)
      duration_minutes

/-- The business-hours check for one participant (`scheduling_engine.py` lines 271-288);
the accumulator carries the running score and violation list. An id that is neither the
candidate nor a known manager is skipped. -/
def participantCheck (dc : DataClient) (candidate : Candidate) (slotStart : Int)
    (business_hours_start business_hours_end : Int) (acc : Int × List String)
    (participant_id : String) : Int × List String :=
  let tzOpt : Option Int :=
    if participant_id = candidate.id then some candidate.location_timezone
    else match dc.get_manager_by_id participant_id with
      | none => none
      | some manager => some manager.location_timezone
  match tzOpt with
  | none => acc
  | some tz =>
    let hour := localHour slotStart tz
    if hour < business_hours_start then
      (acc.1 - 15, acc.2 ++ ["Before business hours for " ++ participant_id])
    else if hour ≥ business_hours_end then
      (acc.1 - 15, acc.2 ++ ["After business hours for " ++ participant_id])
    else acc

/-- `scheduling_engine.py` lines 244-306 `_create_proposal`: base score 100, deadline
penalty against the UTC date of the slot start, distance-from-start-date penalty,
per-participant business-hours penalties, morning bonus and evening penalty in the
candidate timezone, UTC weekday bonus, and a final floor at 0. -/
def create_proposal (dc : DataClient) (slot : TimeSlot) (request : MeetingRequest)
    (candidate : Candidate) (all_participants : List String)
    (business_hours_start business_hours_end : Int) : MeetingProposal :=
  let score : Int := 100
  let violations : List String := []
  let slot_date := dateOf slot.start
  let score := if slot_date > request.deadline_date then score - 50 else score
  let violations :=
    if slot_date > request.deadline_date then violations ++ ["After deadline"]
    else violations
  let days_from_start := (slot_date - candidate.start_date).natAbs
  let score :=
    if days_from_start > 7 then score - 20
    else if days_from_start > 3 then score - 10
    else score
  let sv := all_participants.foldl
    (participantCheck dc candidate slot.start business_hours_start business_hours_end)
    (score, violations)
  let score := sv.1
  let violations := sv.2
  let candidate_local_hour := localHour slot.start candidate.location_timezone
  let score :=
    if 9 ≤ candidate_local_hour ∧ candidate_local_hour < 12 then score + 10
    else if candidate_local_hour ≥ 17 then score - 5
    else score
  let score := if weekday (dateOf slot.start) < 5 then score + 5 else score
  MeetingProposal.mk slot request.meeting_type (max 0 score) violations

/-- Descending order on proposals by score (`proposals.sort(key=..., reverse=True)`). -/
def proposalGE (p q : MeetingProposal) : Prop := q.score ≤ p.score

instance : DecidableRel proposalGE := fun p q => inferInstanceAs (Decidable (q.score ≤ p.score))

instance : IsTotal MeetingProposal proposalGE := ⟨fun p q => le_total q.score p.score⟩

instance : IsTrans MeetingProposal proposalGE := ⟨fun _ _ _ h1 h2 => le_trans h2 h1⟩

/-- `scheduling_engine.py` line 128: stable sort, best score first. -/
def sortProposals (l : List MeetingProposal) : List MeetingProposal :=
  List.insertionSort proposalGE l

/-- Python dict insertion (`manager_availabilities[manager_id] = free_slots`): overwrite
in place when the key exists, else append; dicts preserve insertion order. -/
def updateAssoc (m : List (String × List TimeSlot)) (k : String) (v : List TimeSlot) :
    List (String × List TimeSlot) :=
  if m.any (fun p => decide (p.1 = k)) then
    m.map (fun p => if p.1 = k then (k, v) else p)
  else m ++ [(k, v)]

/-- The scheduling-window date computation of `find_meeting_proposals`
(`scheduling_engine.py` lines 57-69): default the bounds from the candidate start date,
clamp the start to today, and repair a degenerate window to start + 7 days. -/
def computeWindow (today candidate_start : Int) (startOpt endOpt : Option Int)
    (days_before_start days_after_start : Int) : Int × Int :=
  let start_date := startOpt.getD (candidate_start - days_before_start)
  let start_date := if start_date < today then today else start_date
  let end_date := endOpt.getD (candidate_start + days_after_start)
  let end_date := if end_date ≤ start_date then start_date + 7 else end_date
  (start_date, end_date)

/-- `scheduling_engine.py` lines 25-129 `find_meeting_proposals`: the pipeline entry
point. `today` models `date.today()`; the window dates become instants with `time.min`
and `time.max` (minute 0 and minute 1439 of the day). -/
def find_meeting_proposals (dc : DataClient) (cal : CalendarStore)
    (request : MeetingRequest) (business_hours_start business_hours_end : Int)
    (startOpt endOpt : Option Int) (days_before_start days_after_start : Int)
    (max_proposals : Nat) (today : Int) : List MeetingProposal :=
  match dc.get_candidate_by_id request.candidate_id with
  | none => []
  | some candidate =>
    let w := computeWindow today candidate.start_date startOpt endOpt
      days_before_start days_after_start
    let start_datetime := w.1 * 1440
    let end_datetime := w.2 * 1440 + 1439
    let candidate_free_slots := get_candidate_availability candidate start_datetime
      end_datetime business_hours_start business_hours_end
    let manager_availabilities := request.participants.foldl (fun m manager_id =>
      if manager_id = request.candidate_id then m
      else match dc.get_manager_by_id manager_id with
        | none => m
        | some _ => updateAssoc m manager_id
            (get_merged_availability dc cal manager_id start_datetime end_datetime
              business_hours_start business_hours_end)) []
    let all_participants := request.candidate_id ::
      request.participants.filter (fun p => decide (p ≠ request.candidate_id))
    let overlapping_slots := find_overlapping_slots candidate_free_slots
      manager_availabilities request.duration_minutes
    let proposals := overlapping_slots.map (fun slot =>
      create_proposal dc slot request candidate all_participants business_hours_start
        business_hours_end)
    (sortProposals proposals).take max_proposals

/-- Fixture: a directory with one known candidate and no managers. -/
def dcCand : DataClient :=
  { get_candidate_by_id := fun s => if s = "cand" then some ⟨"cand", 0, 11⟩ else none,
    get_manager_by_id := fun _ => none }

/-- Fixture: an empty calendar store. -/
def calEmpty : CalendarStore := fun _ => []

/-- Fixture: a request with an empty participant list. -/
def reqNoParticipants : MeetingRequest := ⟨"cand", [], 540, 25, "Intro with HRBP"⟩

/-- Fixture: a directory with one known manager (UTC) and no candidates. -/
def dcMgr : DataClient :=
  { get_candidate_by_id := fun _ => none,
    get_manager_by_id := fun s => if s = "m" then some ⟨"m", 0⟩ else none }

/-- Fixture: two overlapping Apexon events of manager m on day 11 (a Monday),
16440-16540 and 16490-16590 UTC minutes; no Client events at all. -/
def calTwoApexon : CalendarStore :=
  fun s => if s = "m" then
    [⟨CalendarType.apexon, "m", 16440, 16540⟩, ⟨CalendarType.apexon, "m", 16490, 16590⟩]
  else []

/-- Fixture: a candidate in a UTC+5:30 timezone starting on day 20. -/
def candKolkata : Candidate := ⟨"cand", 330, 20⟩

/-- Fixture: an empty directory. -/
def dcEmpty : DataClient :=
  { get_candidate_by_id := fun _ => none, get_manager_by_id := fun _ => none }

/-- Fixture: a slot starting 23:30 UTC on day 20, which is already day 21 in the
candidate timezone (UTC+5:30). -/
def slotLateUTC : TimeSlot := ⟨30210, 30240, ["cand"], some "intersection"⟩

/-- Fixture: a request whose deadline is day 20. -/
def reqDeadline20 : MeetingRequest := ⟨"cand", [], 30, 20, "Intro with HRBP"⟩

/-- Fixture: a calendar store where only the candidate has (busy) events. -/
def calCandBusy : CalendarStore :=
  fun s => if s = "cand" then [⟨CalendarType.client, "cand", 16400, 16500⟩] else []

/-- Fixture: a request for the known candidate naming one unknown participant. -/
def reqGhost : MeetingRequest := ⟨"cand", ["ghost"], 540, 25, "Intro with HRBP"⟩

/-- Half-open overlap of two (start, stop) pairs. -/
def pairOverlap (a b : Int × Int) : Prop := a.1 < b.2 ∧ b.1 < a.2

instance (a b : Int × Int) : Decidable (pairOverlap a b) :=
  inferInstanceAs (Decidable (_ ∧ _))

/-- Half-open overlap of two time slots. -/
def slotOverlap (a b : TimeSlot) : Prop := a.start < b.stop ∧ b.start < a.stop

instance (a b : TimeSlot) : Decidable (slotOverlap a b) :=
  inferInstanceAs (Decidable (_ ∧ _))

/-- Half-open overlap of two calendar events. -/
def eventOverlap (a b : CalendarEvent) : Prop := a.start < b.stop ∧ b.start < a.stop

instance (a b : CalendarEvent) : Decidable (eventOverlap a b) :=
  inferInstanceAs (Decidable (_ ∧ _))

/-! ## Helper lemmas -/

theorem pairOverlap_symm {a b : Int × Int} (h : ¬ pairOverlap a b) : ¬ pairOverlap b a := by
  unfold pairOverlap at *
  omega

theorem max_zero_sub_fifty (S : Int) : max 0 (S - 50) = max 0 (max 0 S - 50) := by
  rcases le_total 0 S with h | h <;> simp [max_def] <;> split_ifs <;> omega

/-! ## C7: degenerate windows are auto-repaired to 7 days -/

/-- C7: whenever the computed end date is at most the start date (after the start was
clamped to today), the window computation of find_meeting_proposals substitutes an end
date exactly 7 days after the start date instead of failing. -/
theorem computeWindow_repairs_degenerate (today candidate_start : Int)
    (startOpt endOpt : Option Int) (days_before_start days_after_start : Int)
    (h : endOpt.getD (candidate_start + days_after_start) ≤
      (computeWindow today candidate_start startOpt endOpt days_before_start
        days_after_start).1) :
    (computeWindow today candidate_start startOpt endOpt days_before_start
        days_after_start).2 =
      (computeWindow today candidate_start startOpt endOpt days_before_start
        days_after_start).1 + 7 := by
  unfold computeWindow at *
  dsimp only at *
  split_ifs at * <;> omega

/-- Witness for C7 at a concrete input: requested end day 5 lies before the clamped
start day 11, so the window is repaired to end on day 18. -/
theorem computeWindow_repairs_degenerate_witness :
    (5 : Int) ≤ (computeWindow 11 11 none (some 5) 3 7).1 ∧
      (computeWindow 11 11 none (some 5) 3 7).2 =
        (computeWindow 11 11 none (some 5) 3 7).1 + 7 :=
  ⟨by decide, computeWindow_repairs_degenerate 11 11 none (some 5) 3 7 (by decide)⟩

/-! ## C8: unknown ids resolve to empty lists, never errors -/

/-- C8: a request whose candidate id has no directory entry makes
find_meeting_proposals return the empty list, and a user id with no directory entry
makes get_merged_availability return the empty free-slot list; both are total
functions, so no error is raised. -/
theorem unknown_ids_yield_empty :
    (∀ (dc : DataClient) (cal : CalendarStore) (request : MeetingRequest)
        (bhs bhe : Int) (sOpt eOpt : Option Int) (db da : Int) (mp : Nat) (today : Int),
      dc.get_candidate_by_id request.candidate_id = none →
      find_meeting_proposals dc cal request bhs bhe sOpt eOpt db da mp today = []) ∧
    (∀ (dc : DataClient) (cal : CalendarStore) (uid : String) (sd ed bhs bhe : Int),
      dc.get_manager_by_id uid = none →
      get_merged_availability dc cal uid sd ed bhs bhe = []) := by
  constructor
  · intro dc cal request bhs bhe sOpt eOpt db da mp today h
    simp only [find_meeting_proposals, h]
  · intro dc cal uid sd ed bhs bhe h
    simp only [get_merged_availability, h]

/-- Witness for C8 at a concrete input: the empty directory knows neither the
candidate of the request nor the manager id. -/
theorem unknown_ids_yield_empty_witness :
    find_meeting_proposals dcEmpty calEmpty reqNoParticipants 9 18 none none 3 7 5 11
        = [] ∧
      get_merged_availability dcEmpty calEmpty "m" 15840 17279 9 18 = [] :=
  ⟨unknown_ids_yield_empty.1 dcEmpty calEmpty reqNoParticipants 9 18 none none 3 7 5 11
      rfl,
    unknown_ids_yield_empty.2 dcEmpty calEmpty "m" 15840 17279 9 18 rfl⟩

/-! ## C5: the slot slicer -/

theorem splitGo_mem {d e : Int} {parts : List String} {src : Option String} :
    ∀ (fuel : Nat) (cur : Int) (sub : TimeSlot),
      sub ∈ splitGo d e parts src fuel cur →
      ∃ i : Nat, sub.start = cur + (i : Int) * d ∧ sub.stop = sub.start + d ∧
        sub.stop ≤ e ∧ sub.participants = parts ∧ sub.source = src := by
  intro fuel
  induction fuel with
  | zero => intro cur sub h; simp [splitGo] at h
  | succ n ih =>
    intro cur sub h
    rw [splitGo] at h
    split_ifs at h with hc
    · rcases List.mem_cons.mp h with h | h
      · subst h
        exact ⟨0, by simp, rfl, by simpa using hc, rfl, rfl⟩
      · obtain ⟨i, h1, h2, h3, h4, h5⟩ := ih (cur + d) sub h
        refine ⟨i + 1, ?_, h2, h3, h4, h5⟩
        rw [h1]; push_cast; ring
    · simp at h

theorem splitGo_start_le {d e : Int} (hd : 0 ≤ d) {parts : List String}
    {src : Option String} (fuel : Nat) (cur : Int) (sub : TimeSlot)
    (h : sub ∈ splitGo d e parts src fuel cur) : cur ≤ sub.start := by
  obtain ⟨i, h1, -, -, -, -⟩ := splitGo_mem fuel cur sub h
  have : (0 : Int) ≤ (i : Int) * d := mul_nonneg (by positivity) hd
  omega

theorem splitGo_chain {d e : Int} (hd : 0 ≤ d) {parts : List String}
    {src : Option String} :
    ∀ (fuel : Nat) (cur : Int),
      (splitGo d e parts src fuel cur).Pairwise (fun a b => a.stop ≤ b.start) := by
  intro fuel
  induction fuel with
  | zero => intro cur; simp [splitGo]
  | succ n ih =>
    intro cur
    rw [splitGo]
    split_ifs with hc
    · refine List.Pairwise.cons ?_ (ih (cur + d))
      intro b hb
      have h2 := splitGo_start_le hd n (cur + d) b hb
      show cur + d ≤ b.start
      omega
    · simp

theorem splitGo_complete {d e : Int} (hd : 0 < d) {parts : List String}
    {src : Option String} :
    ∀ (fuel : Nat) (cur : Int) (i : Nat), i < fuel →
      cur + ((i : Int) + 1) * d ≤ e →
      TimeSlot.mk (cur + (i : Int) * d) (cur + (i : Int) * d + d) parts src ∈
        splitGo d e parts src fuel cur := by
  intro fuel
  induction fuel with
  | zero => omega
  | succ n ih =>
    intro cur i hif hle
    have hnn : (0 : Int) ≤ (i : Int) * d := mul_nonneg (by positivity) hd.le
    have hcd : cur + d ≤ e := by nlinarith
    rw [splitGo, if_pos hcd]
    cases i with
    | zero =>
      have heq : TimeSlot.mk (cur + ((0 : Nat) : Int) * d)
          (cur + ((0 : Nat) : Int) * d + d) parts src =
          TimeSlot.mk cur (cur + d) parts src := by norm_num
      rw [heq]
      exact List.mem_cons_self _ _
    | succ j =>
      apply List.mem_cons_of_mem
      have hj := ih (cur + d) j (by omega) (by push_cast at hle ⊢; linarith [hle])
      have : TimeSlot.mk (cur + d + (j : Int) * d) (cur + d + (j : Int) * d + d) parts
          src = TimeSlot.mk (cur + ((j : Nat) + 1 : Nat) * d)
            (cur + ((j : Nat) + 1 : Nat) * d + d) parts src := by
        congr 1 <;> push_cast <;> ring
      rwa [this] at hj

/-- C5: for every positive duration, the slot slicer emits sub-slots aligned to the
source slot start, each exactly the requested duration long, pairwise non-overlapping,
contained in the source interval, with participants and source carried through; every
aligned sub-slot that fits is emitted (so only the tail remainder shorter than the
duration is dropped), and the overall result is exactly the per-slot slices. -/
theorem split_slots_by_duration_correct (slots : List TimeSlot) (d : Int)
    (hd : 0 < d) :
    (∀ sub ∈ split_slots_by_duration slots d, ∃ slot ∈ slots, sub ∈ splitSlot d slot) ∧
    (∀ slot : TimeSlot,
      (∀ sub ∈ splitSlot d slot,
        sub.stop - sub.start = d ∧ slot.start ≤ sub.start ∧ sub.stop ≤ slot.stop ∧
        (∃ i : Nat, sub.start = slot.start + (i : Int) * d) ∧
        sub.participants = slot.participants ∧ sub.source = slot.source) ∧
      (splitSlot d slot).Pairwise (fun a b => ¬ slotOverlap a b) ∧
      (∀ i : Nat, slot.start + ((i : Int) + 1) * d ≤ slot.stop →
        TimeSlot.mk (slot.start + (i : Int) * d) (slot.start + (i : Int) * d + d)
          slot.participants slot.source ∈ splitSlot d slot)) := by
  constructor
  · intro sub h
    simpa [split_slots_by_duration, List.mem_flatMap] using h
  · intro slot
    refine ⟨?_, ?_, ?_⟩
    · intro sub h
      obtain ⟨i, h1, h2, h3, h4, h5⟩ := splitGo_mem _ _ sub h
      have hnn : (0 : Int) ≤ (i : Int) * d := mul_nonneg (by positivity) hd.le
      exact ⟨by omega, by omega, h3, ⟨i, h1⟩, h4, h5⟩
    · exact (splitGo_chain hd.le _ _).imp (by intro a b hab; unfold slotOverlap; omega)
    · intro i hi
      have h1 : ((i : Int) + 1) * 1 ≤ ((i : Int) + 1) * d :=
        mul_le_mul_of_nonneg_left (by omega) (by positivity)
      have h2 : (i : Int) + 1 ≤ slot.stop - slot.start := by nlinarith
      exact splitGo_complete hd _ slot.start i (by omega) hi

/-- Witness for C5: slicing a 70-minute slot by 45 minutes emits the aligned first
45-minute sub-slot (and the theorem applies since 45 is positive). -/
theorem split_slots_by_duration_correct_witness :
    (0 : Int) < 45 ∧
      TimeSlot.mk 0 45 ["x"] none ∈ splitSlot 45 (TimeSlot.mk 0 70 ["x"] none) := by
  constructor
  · decide
  · have h := ((split_slots_by_duration_correct [TimeSlot.mk 0 70 ["x"] none] 45
      (by decide)).2 (TimeSlot.mk 0 70 ["x"] none)).2.2 0 (by norm_num)
    simpa using h

/-! ## C6: pairwise intersection -/

theorem mem_intersect_slots {A B : List TimeSlot} {s : TimeSlot} :
    s ∈ intersect_slots A B ↔
      ∃ a ∈ A, ∃ b ∈ B, max a.start b.start < min a.stop b.stop ∧
        s = TimeSlot.mk (max a.start b.start) (min a.stop b.stop)
          ((a.participants ++ b.participants).dedup) (some "intersection") := by
  unfold intersect_slots
  rw [List.mem_flatMap]
  constructor
  · rintro ⟨a, ha, hs⟩
    rw [List.mem_filterMap] at hs
    obtain ⟨b, hb, hf⟩ := hs
    dsimp only at hf
    split_ifs at hf with hlt
    exact ⟨a, ha, b, hb, hlt, (Option.some.inj hf).symm⟩
  · rintro ⟨a, ha, b, hb, hlt, rfl⟩
    refine ⟨a, ha, List.mem_filterMap.mpr ⟨b, hb, ?_⟩⟩
    dsimp only
    rw [if_pos hlt]

/-- C6: pairwise intersection is commutative up to ordering and participant labels:
the set of (start, stop) intervals of `intersect_slots A B` equals that of
`intersect_slots B A`, and every emitted slot is the non-empty overlap
(max of starts, min of stops) of some pair, its participant set the union of the
participant sets of that pair. -/
theorem intersect_slots_commutative (A B : List TimeSlot) :
    (∀ x y : Int,
      (∃ s ∈ intersect_slots A B, s.start = x ∧ s.stop = y) ↔
      (∃ s ∈ intersect_slots B A, s.start = x ∧ s.stop = y)) ∧
    (∀ s ∈ intersect_slots A B, ∃ a ∈ A, ∃ b ∈ B,
      s.start = max a.start b.start ∧ s.stop = min a.stop b.stop ∧ s.start < s.stop ∧
      (∀ p, p ∈ s.participants ↔ p ∈ a.participants ∨ p ∈ b.participants)) := by
  have key : ∀ (C D : List TimeSlot) (x y : Int),
      (∃ s ∈ intersect_slots C D, s.start = x ∧ s.stop = y) →
      (∃ s ∈ intersect_slots D C, s.start = x ∧ s.stop = y) := by
    intro C D x y ⟨s, hs, hx, hy⟩
    obtain ⟨a, ha, b, hb, hlt, rfl⟩ := mem_intersect_slots.mp hs
    refine ⟨TimeSlot.mk (max b.start a.start) (min b.stop a.stop)
      ((b.participants ++ a.participants).dedup) (some "intersection"),
      mem_intersect_slots.mpr ⟨b, hb, a, ha, ?_, rfl⟩, ?_, ?_⟩
    · rw [max_comm, min_comm]; exact hlt
    · rw [← hx]; exact max_comm b.start a.start
    · rw [← hy]; exact min_comm b.stop a.stop
  constructor
  · intro x y
    exact ⟨key A B x y, key B A x y⟩
  · intro s hs
    obtain ⟨a, ha, b, hb, hlt, rfl⟩ := mem_intersect_slots.mp hs
    exact ⟨a, ha, b, hb, rfl, rfl, hlt, by
      intro p
      simp [List.mem_dedup, List.mem_append]⟩

/-- Witness for C6: intersecting [0,60) (participant a) with [30,90) (participant b)
in the opposite order still yields the interval 30-60. -/
theorem intersect_slots_commutative_witness :
    ∃ s ∈ intersect_slots [TimeSlot.mk 30 90 ["b"] none] [TimeSlot.mk 0 60 ["a"] none],
      s.start = 30 ∧ s.stop = 60 :=
  ((intersect_slots_commutative [TimeSlot.mk 0 60 ["a"] none]
      [TimeSlot.mk 30 90 ["b"] none]).1 30 60).mp (by decide)

/-! ## C2: priority merge of the two calendar sources (corrected) -/

theorem foldl_addApexonEvent_structure :
    ∀ (ap : List CalendarEvent) (busy : List (Int × Int)),
      ∃ kept, ap.foldl addApexonEvent busy = busy ++ kept ∧
        kept.Sublist (ap.map (fun e => (e.start, e.stop))) ∧
        (∀ p ∈ kept, ∀ c ∈ busy, ¬ pairOverlap p c) := by
  intro ap
  induction ap with
  | nil => intro busy; exact ⟨[], by simp, by simp, by simp⟩
  | cons e rest ih =>
    intro busy
    rw [List.foldl_cons]
    show ∃ kept, rest.foldl addApexonEvent (addApexonEvent busy e) = _ ∧ _ ∧ _
    unfold addApexonEvent
    split_ifs with hc
    · obtain ⟨kept, h1, h2, h3⟩ := ih busy
      exact ⟨kept, h1, h2.trans (List.sublist_cons_self _ _), h3⟩
    · obtain ⟨kept, h1, h2, h3⟩ := ih (busy ++ [(e.start, e.stop)])
      refine ⟨(e.start, e.stop) :: kept, by simpa using h1,
        List.Sublist.cons₂ _ h2, ?_⟩
      intro p hp c hcmem
      rcases List.mem_cons.mp hp with rfl | hp
      · intro hov
        apply hc
        refine List.any_eq_true.mpr ⟨c, hcmem, decide_eq_true ?_⟩
        unfold pairOverlap at hov
        omega
      · exact h3 p hp c (List.mem_append_left _ hcmem)

theorem foldl_addApexonEvent_keeps :
    ∀ (ap : List CalendarEvent) (busy : List (Int × Int)) (e : CalendarEvent),
      ap.Pairwise (fun a b => ¬ eventOverlap a b) → e ∈ ap →
      (∀ c ∈ busy, ¬ pairOverlap (e.start, e.stop) c) →
      (e.start, e.stop) ∈ ap.foldl addApexonEvent busy := by
  intro ap
  induction ap with
  | nil => intro busy e _ h; simp at h
  | cons a rest ih =>
    intro busy e hpw hmem hbusy
    rw [List.foldl_cons]
    rcases List.mem_cons.mp hmem with rfl | hmem
    · have hnc : addApexonEvent busy e = busy ++ [(e.start, e.stop)] := by
        unfold addApexonEvent
        rw [if_neg]
        intro hany
        obtain ⟨c, hcmem, hcd⟩ := List.any_eq_true.mp hany
        rw [decide_eq_true_eq] at hcd
        exact hbusy c hcmem (by unfold pairOverlap; omega)
      rw [hnc]
      obtain ⟨kept, h1, -, -⟩ := foldl_addApexonEvent_structure rest
        (busy ++ [(e.start, e.stop)])
      rw [h1]
      exact List.mem_append_left _ (List.mem_append_right _ (List.mem_singleton.mpr rfl))
    · have hsub : ∀ c ∈ addApexonEvent busy a, c ∈ busy ∨ c = (a.start, a.stop) := by
        intro c hc
        unfold addApexonEvent at hc
        split_ifs at hc
        · exact Or.inl hc
        · rcases List.mem_append.mp hc with hc | hc
          · exact Or.inl hc
          · exact Or.inr (List.mem_singleton.mp hc)
      apply ih (addApexonEvent busy a) e (List.Pairwise.of_cons hpw) hmem
      intro c hc
      rcases hsub c hc with hc | rfl
      · exact hbusy c hc
      · have hae : ¬ eventOverlap a e := (List.pairwise_cons.mp hpw).1 e hmem
        unfold eventOverlap at hae
        unfold pairOverlap
        dsimp only
        omega

/-- C2 (amended): in the priority merge, every client (override) interval is kept
as-is, at the front of the busy list; every kept apexon (primary) interval overlaps no
client interval, so an apexon interval overlapping some client interval is suppressed
wholesale; but an apexon interval survives only if it also overlaps no previously kept
apexon interval — one overlapping no client interval but overlapping an earlier apexon
interval is dropped as well, so the claimed "if and only if" fails (see the
counterexample). -/
theorem mergeBusy_priority (clientEvents apexonEvents : List CalendarEvent) :
    ∃ kept,
      mergeBusy clientEvents apexonEvents =
        clientEvents.map (fun e => (e.start, e.stop)) ++ kept ∧
      kept.Sublist (apexonEvents.map (fun e => (e.start, e.stop))) ∧
      (∀ p ∈ kept, ∀ c ∈ clientEvents.map (fun e => (e.start, e.stop)),
        ¬ pairOverlap p c) ∧
      (apexonEvents.Pairwise (fun a b => ¬ eventOverlap a b) →
        ∀ e ∈ apexonEvents, (∀ c ∈ clientEvents, ¬ eventOverlap e c) →
          (e.start, e.stop) ∈ mergeBusy clientEvents apexonEvents) := by
  obtain ⟨kept, h1, h2, h3⟩ := foldl_addApexonEvent_structure apexonEvents
    (clientEvents.map (fun e => (e.start, e.stop)))
  refine ⟨kept, h1, h2, h3, ?_⟩
  intro hpw e hmem hcl
  apply foldl_addApexonEvent_keeps apexonEvents _ e hpw hmem
  intro c hc
  obtain ⟨ce, hce, rfl⟩ := List.mem_map.mp hc
  have := hcl ce hce
  unfold eventOverlap at this
  unfold pairOverlap
  dsimp only
  omega

/-- Witness for C2: a lone apexon event overlapping neither the client event nor any
other apexon event is kept by the merge. -/
theorem mergeBusy_priority_witness :
    ((20 : Int), (30 : Int)) ∈
      mergeBusy [CalendarEvent.mk CalendarType.client "m" 0 10]
        [CalendarEvent.mk CalendarType.apexon "m" 20 30] := by
  obtain ⟨kept, -, -, -, h4⟩ := mergeBusy_priority
    [CalendarEvent.mk CalendarType.client "m" 0 10]
    [CalendarEvent.mk CalendarType.apexon "m" 20 30]
  exact h4 (by simp) (CalendarEvent.mk CalendarType.apexon "m" 20 30) (by simp)
    (by decide)

/-- C2 counterexample: with no client events at all and two overlapping apexon events
of manager m, the second apexon event (16490-16590) overlaps no override interval yet
is dropped by the merge, and its tail 16540-16590 even reappears inside the returned
free slot 16540-16920 — refuting "a primary interval overlapping no override interval
remains in the busy list unchanged". -/
theorem mergeBusy_counterexample :
    get_merged_availability dcMgr calTwoApexon "m" 15840 17279 9 18 =
      [TimeSlot.mk 16380 16440 ["m"] (some "merged_availability"),
        TimeSlot.mk 16540 16920 ["m"] (some "merged_availability")] ∧
      mergeBusy (get_client_calendar_events calTwoApexon "m")
          (get_apexon_calendar_events calTwoApexon "m") = [(16440, 16540)] ∧
      get_client_calendar_events calTwoApexon "m" = [] := by
  refine ⟨?_, by decide, by decide⟩
  decide

/-! ## C1: the entry point performs no request validation (corrected) -/

theorem splitGo_nonpos_no_exit (d e : Int) (parts : List String) (src : Option String) :
    ∀ (fuel : Nat) (cur : Int), d ≤ 0 → cur + d ≤ e →
      (splitGo d e parts src fuel cur).length = fuel := by
  intro fuel
  induction fuel with
  | zero => intro cur _ _; simp [splitGo]
  | succ n ih =>
    intro cur hd hle
    rw [splitGo, if_pos hle]
    simp [ih (cur + d) hd (by omega)]

/-- C1 (amended): find_meeting_proposals performs no request validation. With an empty
participant list it runs the full pipeline and returns proposals computed from the
candidate availability alone (two scored proposals in the concrete run below), and for
duration_minutes ≤ 0 the slot-splitting loop never exits — in the fuel-indexed model of
the while loop the result keeps growing with the fuel — so no rejection value or reason
string is ever produced. -/
theorem find_meeting_proposals_no_validation :
    (find_meeting_proposals dcCand calEmpty reqNoParticipants 9 18 (some 11) (some 12)
        3 7 5 11).length = 2 ∧
    (∀ (d e : Int) (parts : List String) (src : Option String) (cur : Int) (fuel : Nat),
      d ≤ 0 → cur + d ≤ e → (splitGo d e parts src fuel cur).length = fuel) := by
  constructor
  · decide
  · intro d e parts src cur fuel hd hle
    exact splitGo_nonpos_no_exit d e parts src fuel cur hd hle

/-- Witness for C1 (amended), second part at a concrete input: with duration 0 the
splitting loop consumes every unit of fuel. -/
theorem find_meeting_proposals_no_validation_witness :
    ((0 : Int) ≤ 0 ∧ (0 : Int) + 0 ≤ 10) ∧ (splitGo 0 10 [] none 3 0).length = 3 :=
  ⟨⟨le_refl 0, by decide⟩,
    find_meeting_proposals_no_validation.2 0 10 [] none 0 3 (le_refl 0) (by decide)⟩

/-- C1 counterexample: a request with an empty participant list is not rejected;
find_meeting_proposals performs the whole resolution and returns two fully scored
proposals, and its interface has no rejection value or reason string at all. -/
theorem find_meeting_proposals_counterexample :
    find_meeting_proposals dcCand calEmpty reqNoParticipants 9 18 (some 11) (some 12)
        3 7 5 11 =
      [MeetingProposal.mk
          (TimeSlot.mk 16380 16920 ["cand"] (some "candidate_business_hours"))
          "Intro with HRBP" 115 [],
        MeetingProposal.mk
          (TimeSlot.mk 17820 18360 ["cand"] (some "candidate_business_hours"))
          "Intro with HRBP" 115 []] := by
  decide

/-! ## C4: the deadline rule of the scorer (corrected) -/

theorem participantCheck_shift (dc : DataClient) (cand : Candidate) (t : Int)
    (bhs bhe : Int) (x : String) (s : Int) (v : List String) :
    participantCheck dc cand t bhs bhe (s, v) x =
      (s + (participantCheck dc cand t bhs bhe (0, []) x).1,
        v ++ (participantCheck dc cand t bhs bhe (0, []) x).2) := by
  unfold participantCheck
  dsimp only
  by_cases h1 : x = cand.id
  · simp only [if_pos h1]
    split_ifs <;> simp <;> omega
  · simp only [if_neg h1]
    cases hl : dc.get_manager_by_id x
    · simp
    · simp only []
      split_ifs <;> simp <;> omega

theorem foldl_participantCheck_shift (dc : DataClient) (cand : Candidate) (t : Int)
    (bhs bhe : Int) :
    ∀ (l : List String) (s : Int) (v : List String),
      l.foldl (participantCheck dc cand t bhs bhe) (s, v) =
        (s + (l.foldl (participantCheck dc cand t bhs bhe) (0, [])).1,
          v ++ (l.foldl (participantCheck dc cand t bhs bhe) (0, [])).2) := by
  intro l
  induction l with
  | nil => intro s v; simp
  | cons x xs ih =>
    intro s v
    obtain ⟨a, b, hab⟩ : ∃ a b, participantCheck dc cand t bhs bhe (0, []) x = (a, b) :=
      ⟨_, _, rfl⟩
    rw [List.foldl_cons, List.foldl_cons,
      participantCheck_shift dc cand t bhs bhe x s v, hab]
    dsimp only
    rw [ih (s + a) (v ++ b), ih a b]
    simp [add_assoc]

theorem foldl_participantCheck_violations (dc : DataClient) (cand : Candidate)
    (t : Int) (bhs bhe : Int) :
    ∀ (l : List String) (s : Int) (v : List String) (x : String),
      x ∈ (l.foldl (participantCheck dc cand t bhs bhe) (s, v)).2 →
      x ∈ v ∨ ∃ pid, x = "Before business hours for " ++ pid ∨
        x = "After business hours for " ++ pid := by
  intro l
  induction l with
  | nil => intro s v x hx; exact Or.inl hx
  | cons y ys ih =>
    intro s v x hx
    rw [List.foldl_cons] at hx
    have hstep : (participantCheck dc cand t bhs bhe (s, v) y).2 = v ∨
        (participantCheck dc cand t bhs bhe (s, v) y).2 =
          v ++ ["Before business hours for " ++ y] ∨
        (participantCheck dc cand t bhs bhe (s, v) y).2 =
          v ++ ["After business hours for " ++ y] := by
      unfold participantCheck
      dsimp only
      by_cases h1 : y = cand.id
      · simp only [if_pos h1]
        split_ifs <;> simp
      · simp only [if_neg h1]
        cases hl : dc.get_manager_by_id y
        · simp
        · simp only []
          split_ifs <;> simp
    have hfold := ih (participantCheck dc cand t bhs bhe (s, v) y).1
      (participantCheck dc cand t bhs bhe (s, v) y).2 x (by simpa using hx)
    rcases hfold with hx2 | hx2
    · rcases hstep with he | he | he <;> rw [he] at hx2
      · exact Or.inl hx2
      · rcases List.mem_append.mp hx2 with hx3 | hx3
        · exact Or.inl hx3
        · exact Or.inr ⟨y, Or.inl (List.mem_singleton.mp hx3)⟩
      · rcases List.mem_append.mp hx2 with hx3 | hx3
        · exact Or.inl hx3
        · exact Or.inr ⟨y, Or.inr (List.mem_singleton.mp hx3)⟩
    · exact Or.inr hx2

theorem after_deadline_ne_bh (pid : String) :
    "After deadline" ≠ "Before business hours for " ++ pid ∧
    "After deadline" ≠ "After business hours for " ++ pid := by
  constructor
  · intro h
    have hlen := congrArg String.length h
    rw [String.length_append] at hlen
    have h1 : ("After deadline").length = 14 := rfl
    have h2 : ("Before business hours for ").length = 26 := rfl
    omega
  · intro h
    have hlen := congrArg String.length h
    rw [String.length_append] at hlen
    have h1 : ("After deadline").length = 14 := rfl
    have h2 : ("After business hours for ").length = 25 := rfl
    omega

/-- C4 (amended): the deadline test of the scorer compares the UTC calendar date of
the slot start (not the local date) against request.deadline_date; crossing it lowers
the pre-floor score by exactly 50 and prepends the violation "After deadline" exactly
then, everything else unchanged; the returned score is floored at 0, so the observable
scores of two otherwise-identical proposals relate by score_beyond = max 0
(score_within - 50). -/
theorem create_proposal_deadline (dc : DataClient) (slot : TimeSlot)
    (request : MeetingRequest) (cand : Candidate) (parts : List String)
    (bhs bhe : Int) (d2 : Int)
    (h1 : dateOf slot.start ≤ request.deadline_date)
    (h2 : d2 < dateOf slot.start) :
    (create_proposal dc slot { request with deadline_date := d2 } cand parts bhs
        bhe).score =
      max 0 ((create_proposal dc slot request cand parts bhs bhe).score - 50) ∧
    (create_proposal dc slot { request with deadline_date := d2 } cand parts bhs
        bhe).constraints_violated =
      "After deadline" ::
        (create_proposal dc slot request cand parts bhs bhe).constraints_violated ∧
    "After deadline" ∉
      (create_proposal dc slot request cand parts bhs bhe).constraints_violated := by
  have hshift := foldl_participantCheck_shift dc cand slot.start bhs bhe parts
  obtain ⟨F1, F2, hF⟩ : ∃ F1 F2,
      parts.foldl (participantCheck dc cand slot.start bhs bhe) (0, []) = (F1, F2) :=
    ⟨_, _, rfl⟩
  rw [hF] at hshift
  unfold create_proposal
  dsimp only
  simp only [if_neg (not_lt.mpr h1), if_pos h2]
  rw [hshift, hshift]
  dsimp only
  refine ⟨?_, by simp, ?_⟩
  · have hD : (if ((dateOf slot.start - cand.start_date).natAbs > 7) then (100 : Int) -
        50 - 20 else if ((dateOf slot.start - cand.start_date).natAbs > 3) then
        (100 : Int) - 50 - 10 else (100 : Int) - 50) =
        (if ((dateOf slot.start - cand.start_date).natAbs > 7) then (100 : Int) - 20
          else if ((dateOf slot.start - cand.start_date).natAbs > 3) then
          (100 : Int) - 10 else (100 : Int)) - 50 := by
      split_ifs <;> ring
    rw [hD]
    generalize (if ((dateOf slot.start - cand.start_date).natAbs > 7) then (100 : Int) -
      20 else if ((dateOf slot.start - cand.start_date).natAbs > 3) then
      (100 : Int) - 10 else (100 : Int)) = S
    have hsub : S - 50 + F1 = (S + F1) - 50 := by ring
    rw [hsub]
    generalize S + F1 = T
    have hme : ∀ X : Int,
        (if 9 ≤ localHour slot.start cand.location_timezone ∧
            localHour slot.start cand.location_timezone < 12 then X + 10
          else if localHour slot.start cand.location_timezone ≥ 17 then X - 5
          else X) =
        X + (if 9 ≤ localHour slot.start cand.location_timezone ∧
            localHour slot.start cand.location_timezone < 12 then (10 : Int)
          else if localHour slot.start cand.location_timezone ≥ 17 then -5
          else 0) := by
      intro X; split_ifs <;> ring
    rw [hme, hme]
    generalize (if 9 ≤ localHour slot.start cand.location_timezone ∧
        localHour slot.start cand.location_timezone < 12 then (10 : Int)
      else if localHour slot.start cand.location_timezone ≥ 17 then -5 else 0) = M
    have hwk : ∀ X : Int,
        (if weekday (dateOf slot.start) < 5 then X + 5 else X) =
        X + (if weekday (dateOf slot.start) < 5 then (5 : Int) else 0) := by
      intro X; split_ifs <;> ring
    rw [hwk, hwk]
    generalize (if weekday (dateOf slot.start) < 5 then (5 : Int) else 0) = W
    have : T - 50 + M + W = (T + M + W) - 50 := by ring
    rw [this]
    exact max_zero_sub_fifty (T + M + W)
  · intro hmem
    rw [List.nil_append] at hmem
    have hv := foldl_participantCheck_violations dc cand slot.start bhs bhe parts 0 []
      "After deadline" (by rw [hF]; exact hmem)
    rcases hv with h | ⟨pid, h | h⟩
    · simp at h
    · exact (after_deadline_ne_bh pid).1 h
    · exact (after_deadline_ne_bh pid).2 h

/-- Witness for C4 (amended) at a concrete input: a slot on UTC day 20 scored against
deadlines 20 (within) and 19 (beyond) gains exactly the prepended violation. -/
theorem create_proposal_deadline_witness :
    (dateOf slotLateUTC.start ≤ reqDeadline20.deadline_date ∧
        (19 : Int) < dateOf slotLateUTC.start) ∧
      (create_proposal dcEmpty slotLateUTC { reqDeadline20 with deadline_date := 19 }
          candKolkata ["cand"] 9 18).constraints_violated =
        "After deadline" :: (create_proposal dcEmpty slotLateUTC reqDeadline20
          candKolkata ["cand"] 9 18).constraints_violated :=
  ⟨⟨by decide, by decide⟩,
    (create_proposal_deadline dcEmpty slotLateUTC reqDeadline20 candKolkata ["cand"]
      9 18 19 (by decide) (by decide)).2.1⟩

/-- C4 counterexample: the slot starting 23:30 UTC on day 20 falls on day 21 in the
candidate timezone (UTC+5:30), strictly after the deadline day 20, yet the scorer
compares the UTC date (20, not beyond the deadline) and applies no penalty and no
"After deadline" violation — refuting the claim that the test uses the local
calendar date. -/
theorem create_proposal_counterexample :
    localDate slotLateUTC.start candKolkata.location_timezone >
        reqDeadline20.deadline_date ∧
      "After deadline" ∉ (create_proposal dcEmpty slotLateUTC reqDeadline20 candKolkata
        ["cand"] 9 18).constraints_violated ∧
      (create_proposal dcEmpty slotLateUTC reqDeadline20 candKolkata ["cand"] 9
        18).score = 90 := by
  refine ⟨by decide, by decide, by decide⟩

/-! ## C3: disjointness of the resolved free time -/

theorem middleGaps_tail_eq (se : Int) :
    ∀ (rest : List (Int × Int)) (b : Int × Int),
      middleGaps (b :: rest) ++
          (if ((b :: rest).getLast (by simp)).2 < se
            then [(((b :: rest).getLast (by simp)).2, se)] else []) =
        gapsGo se b.2 rest := by
  intro rest
  induction rest with
  | nil =>
    intro b
    simp [middleGaps, gapsGo, List.getLast]
  | cons c rest ih =>
    intro b
    have hlast : ((b :: c :: rest).getLast (by simp)) =
        ((c :: rest).getLast (by simp)) := by
      simp [List.getLast]
    rw [show middleGaps (b :: c :: rest) =
        (if b.2 < c.1 then [(b.2, c.1)] else []) ++ middleGaps (c :: rest) from rfl]
    rw [hlast, List.append_assoc, ih c]
    rfl

theorem dayGaps_eq_gapsGo (ss se : Int) (hss : ss < se) (db : List (Int × Int)) :
    dayGaps ss se db = gapsGo se ss db := by
  cases db with
  | nil => simp [dayGaps, gapsGo, if_pos hss]
  | cons b rest =>
    show _ ++ _ ++ _ = _ ++ gapsGo se b.2 rest
    rw [List.append_assoc, middleGaps_tail_eq se rest b]

theorem gapsGo_props (se : Int) :
    ∀ (db : List (Int × Int)) (cur : Int),
      db.Pairwise (fun a b => a.2 ≤ b.1) →
      (∀ b ∈ db, b.1 < b.2 ∧ b.2 ≤ se) →
      (∀ b ∈ db, cur ≤ b.1) →
      (∀ g ∈ gapsGo se cur db, cur ≤ g.1 ∧ g.1 < g.2 ∧ g.2 ≤ se) ∧
      (∀ g ∈ gapsGo se cur db, ∀ b ∈ db, ¬ pairOverlap g b) ∧
      (gapsGo se cur db).Pairwise (fun a b => a.2 ≤ b.1) := by
  intro db
  induction db with
  | nil =>
    intro cur _ _ _
    refine ⟨?_, by simp, ?_⟩
    · intro g hg
      rw [gapsGo] at hg
      split_ifs at hg with h
      · rw [List.mem_singleton] at hg
        subst hg
        exact ⟨le_refl _, h, le_refl _⟩
      · simp at hg
    · rw [gapsGo]
      split_ifs <;> simp
  | cons b rest ih =>
    intro cur hpw hbnd hcur
    have hb := hbnd b (List.mem_cons_self b rest)
    have hcurb := hcur b (List.mem_cons_self b rest)
    have hpw2 := List.pairwise_cons.mp hpw
    obtain ⟨hrest1, hrest2, hrest3⟩ := ih b.2 hpw2.2
      (fun c hc => hbnd c (List.mem_cons_of_mem _ hc)) (fun c hc => hpw2.1 c hc)
    have hsplit : gapsGo se cur (b :: rest) =
        (if cur < b.1 then [(cur, b.1)] else []) ++ gapsGo se b.2 rest := rfl
    refine ⟨?_, ?_, ?_⟩
    · intro g hg
      rw [hsplit] at hg
      rcases List.mem_append.mp hg with hg | hg
      · split_ifs at hg with h
        · rw [List.mem_singleton] at hg
          subst hg
          exact ⟨le_refl _, h, by omega⟩
        · simp at hg
      · have := hrest1 g hg
        exact ⟨by omega, this.2.1, this.2.2⟩
    · intro g hg c hc
      rw [hsplit] at hg
      rcases List.mem_append.mp hg with hg | hg
      · split_ifs at hg with h
        · rw [List.mem_singleton] at hg
          subst hg
          rcases List.mem_cons.mp hc with rfl | hc
          · unfold pairOverlap; dsimp only; omega
          · have := hpw2.1 c hc
            unfold pairOverlap; dsimp only; omega
        · simp at hg
      · rcases List.mem_cons.mp hc with rfl | hc
        · have := (hrest1 g hg).1
          unfold pairOverlap; omega
        · exact hrest2 g hg c hc
    · rw [hsplit, List.pairwise_append]
      refine ⟨by split_ifs <;> simp, hrest3, ?_⟩
      intro a ha g hg
      split_ifs at ha with h
      · rw [List.mem_singleton] at ha
        subst ha
        have := (hrest1 g hg).1
        dsimp only
        omega
      · simp at ha

theorem sorted_disjoint_chain (l : List (Int × Int))
    (hs : l.Pairwise busyLE) (hd : l.Pairwise (fun a b => ¬ pairOverlap a b))
    (hne : ∀ p ∈ l, p.1 < p.2) : l.Pairwise (fun a b => a.2 ≤ b.1) := by
  refine (hs.and hd).imp_of_mem ?_
  intro a b ha hb hab
  have hna := hne a ha
  have hnb := hne b hb
  obtain ⟨h1, h2⟩ := hab
  unfold busyLE at h1
  unfold pairOverlap at h2
  omega

theorem foldl_addApexonEvent_pairwise :
    ∀ (ap : List CalendarEvent) (busy : List (Int × Int)),
      busy.Pairwise (fun a b => ¬ pairOverlap a b) →
      (ap.foldl addApexonEvent busy).Pairwise (fun a b => ¬ pairOverlap a b) := by
  intro ap
  induction ap with
  | nil => exact fun busy h => h
  | cons e rest ih =>
    intro busy h
    rw [List.foldl_cons]
    apply ih
    unfold addApexonEvent
    split_ifs with hc
    · exact h
    · rw [List.pairwise_append]
      refine ⟨h, by simp, ?_⟩
      intro a ha p hp
      rw [List.mem_singleton] at hp
      subst hp
      intro hov
      apply hc
      refine List.any_eq_true.mpr ⟨a, ha, decide_eq_true ?_⟩
      unfold pairOverlap at hov
      omega

theorem mem_foldl_addApexonEvent :
    ∀ (ap : List CalendarEvent) (busy : List (Int × Int)) (p : Int × Int),
      p ∈ ap.foldl addApexonEvent busy →
      p ∈ busy ∨ ∃ e ∈ ap, p = (e.start, e.stop) := by
  intro ap
  induction ap with
  | nil => intro busy p hp; exact Or.inl hp
  | cons e rest ih =>
    intro busy p hp
    rw [List.foldl_cons] at hp
    rcases ih (addApexonEvent busy e) p hp with hp2 | hp2
    · unfold addApexonEvent at hp2
      split_ifs at hp2
      · exact Or.inl hp2
      · rcases List.mem_append.mp hp2 with hp3 | hp3
        · exact Or.inl hp3
        · exact Or.inr ⟨e, List.mem_cons_self e rest, List.mem_singleton.mp hp3⟩
    · obtain ⟨e2, he2, hpe⟩ := hp2
      exact Or.inr ⟨e2, List.mem_cons_of_mem _ he2, hpe⟩

theorem dayRange_pairwise_lt (a b : Int) : (dayRange a b).Pairwise (· < ·) := by
  unfold dayRange
  refine List.Pairwise.map _ ?_ (List.pairwise_lt_range ((b - a + 1).toNat))
  intro i j hij
  show a + (i : Int) < a + (j : Int)
  omega

theorem clipped_busy_props (ss se : Int) (hlt : ss < se)
    (busySorted : List (Int × Int))
    (hs : busySorted.Pairwise busyLE)
    (hdj : busySorted.Pairwise (fun a b => ¬ pairOverlap a b))
    (hne : ∀ p ∈ busySorted, p.1 < p.2) :
    ((busySorted.filter (fun bs => decide (bs.1 < se) && decide (bs.2 > ss))).map
        (fun bs => (max bs.1 ss, min bs.2 se))).Pairwise (fun a b => a.2 ≤ b.1) ∧
    (∀ b ∈ (busySorted.filter
        (fun bs => decide (bs.1 < se) && decide (bs.2 > ss))).map
        (fun bs => (max bs.1 ss, min bs.2 se)), b.1 < b.2 ∧ b.2 ≤ se) ∧
    (∀ b ∈ (busySorted.filter
        (fun bs => decide (bs.1 < se) && decide (bs.2 > ss))).map
        (fun bs => (max bs.1 ss, min bs.2 se)), ss ≤ b.1) := by
  have hchain := sorted_disjoint_chain busySorted hs hdj hne
  refine ⟨?_, ?_, ?_⟩
  · refine List.Pairwise.map _ ?_ (hchain.sublist (List.filter_sublist _))
    intro p q hpq
    exact le_trans (min_le_left _ _) (le_trans hpq (le_max_left _ _))
  · intro b hb
    rw [List.mem_map] at hb
    obtain ⟨q, hq, rfl⟩ := hb
    rw [List.mem_filter] at hq
    obtain ⟨hqmem, hqf⟩ := hq
    rw [Bool.and_eq_true, decide_eq_true_eq, decide_eq_true_eq] at hqf
    have hq2 := hne q hqmem
    constructor
    · dsimp only
      refine lt_min (max_lt ?_ ?_) (max_lt ?_ ?_) <;> omega
    · exact min_le_right _ _
  · intro b hb
    rw [List.mem_map] at hb
    obtain ⟨q, hq, rfl⟩ := hb
    exact le_max_right _ _

theorem dayFreeSlots_props (uid : String) (tz bhs bhe rs re : Int)
    (busySorted : List (Int × Int)) (d : Int)
    (hs : busySorted.Pairwise busyLE)
    (hdj : busySorted.Pairwise (fun a b => ¬ pairOverlap a b))
    (hne : ∀ p ∈ busySorted, p.1 < p.2) :
    (∀ f ∈ dayFreeSlots uid tz bhs bhe rs re busySorted d,
      max (d * 1440 + bhs * 60 - tz) rs ≤ f.start ∧ f.start < f.stop ∧
        f.stop ≤ min (d * 1440 + bhe * 60 - tz) re) ∧
    (∀ f ∈ dayFreeSlots uid tz bhs bhe rs re busySorted d,
      ∀ p ∈ busySorted, ¬ (f.start < p.2 ∧ p.1 < f.stop)) ∧
    (dayFreeSlots uid tz bhs bhe rs re busySorted d).Pairwise
      (fun a b => a.stop ≤ b.start) := by
  unfold dayFreeSlots
  dsimp only
  split_ifs with hwk hlt
  · have hcb := clipped_busy_props
      (max (d * 1440 + bhs * 60 - tz) rs) (min (d * 1440 + bhe * 60 - tz) re) hlt
      busySorted hs hdj hne
    obtain ⟨hc1, hc2, hc3⟩ := hcb
    obtain ⟨hg1, hg2, hg3⟩ := gapsGo_props (min (d * 1440 + bhe * 60 - tz) re) _
      (max (d * 1440 + bhs * 60 - tz) rs) hc1 hc2 hc3
    rw [dayGaps_eq_gapsGo _ _ hlt]
    refine ⟨?_, ?_, ?_⟩
    · intro f hf
      rw [List.mem_map] at hf
      obtain ⟨g, hg, rfl⟩ := hf
      exact hg1 g hg
    · intro f hf p hp
      rw [List.mem_map] at hf
      obtain ⟨g, hg, rfl⟩ := hf
      dsimp only
      intro hov
      obtain ⟨hb1, hb2, hb3⟩ := hg1 g hg
      by_cases hpf : p.1 < min (d * 1440 + bhe * 60 - tz) re ∧
          p.2 > max (d * 1440 + bhs * 60 - tz) rs
      · have hmem : (max p.1 (max (d * 1440 + bhs * 60 - tz) rs),
            min p.2 (min (d * 1440 + bhe * 60 - tz) re)) ∈
            (busySorted.filter (fun bs =>
              decide (bs.1 < min (d * 1440 + bhe * 60 - tz) re) &&
                decide (bs.2 > max (d * 1440 + bhs * 60 - tz) rs))).map
              (fun bs => (max bs.1 (max (d * 1440 + bhs * 60 - tz) rs),
                min bs.2 (min (d * 1440 + bhe * 60 - tz) re))) := by
          rw [List.mem_map]
          refine ⟨p, List.mem_filter.mpr ⟨hp, ?_⟩, rfl⟩
          rw [Bool.and_eq_true, decide_eq_true_eq, decide_eq_true_eq]
          exact hpf
        have := hg2 g hg _ hmem
        apply this
        unfold pairOverlap
        dsimp only
        exact ⟨lt_min hov.1 (lt_of_lt_of_le hb2 hb3),
          max_lt hov.2 (lt_of_le_of_lt hb1 hb2)⟩
      · push_neg at hpf
        rcases le_or_lt (min (d * 1440 + bhe * 60 - tz) re) p.1 with hcase | hcase
        · omega
        · have := hpf hcase
          omega
    · refine List.Pairwise.map _ ?_ hg3
      intro a b hab
      exact hab
  · exact ⟨by simp, by simp, by simp⟩
  · exact ⟨by simp, by simp, by simp⟩

/-- C3: under the TimeInterval invariant (every stored event is non-empty) and
non-overlapping client events — both true of the synthetic calendars — the free slots
returned by get_merged_availability are pairwise non-overlapping and no free slot
overlaps any busy interval that survives the priority merge, for business hours within
a day (0 ≤ start, end ≤ 24). -/
theorem get_merged_availability_disjoint (dc : DataClient) (cal : CalendarStore)
    (uid : String) (rs re bhs bhe : Int)
    (hne : ∀ e ∈ cal uid, e.start < e.stop)
    (hcl : (get_client_calendar_events cal uid).Pairwise
      (fun a b => ¬ eventOverlap a b))
    (hbhs : 0 ≤ bhs) (hbhe : bhe ≤ 24) :
    (get_merged_availability dc cal uid rs re bhs bhe).Pairwise
        (fun a b => ¬ slotOverlap a b) ∧
    (∀ f ∈ get_merged_availability dc cal uid rs re bhs bhe,
      ∀ p ∈ mergeBusy (get_client_calendar_events cal uid)
          (get_apexon_calendar_events cal uid),
        ¬ (f.start < p.2 ∧ p.1 < f.stop)) := by
  unfold get_merged_availability
  cases hm : dc.get_manager_by_id uid with
  | none => simp
  | some manager =>
    dsimp only
    have hBdisj : (mergeBusy (get_client_calendar_events cal uid)
        (get_apexon_calendar_events cal uid)).Pairwise
        (fun a b => ¬ pairOverlap a b) := by
      apply foldl_addApexonEvent_pairwise
      refine List.Pairwise.map _ ?_ hcl
      intro a b hab hov
      apply hab
      unfold pairOverlap at hov
      dsimp only at hov
      exact hov
    have hBne : ∀ p ∈ mergeBusy (get_client_calendar_events cal uid)
        (get_apexon_calendar_events cal uid), p.1 < p.2 := by
      intro p hp
      rcases mem_foldl_addApexonEvent _ _ p hp with hp2 | ⟨e, he, rfl⟩
      · rw [List.mem_map] at hp2
        obtain ⟨e, he, rfl⟩ := hp2
        exact hne e (List.mem_filter.mp he).1
      · exact hne e (List.mem_filter.mp he).1
    have hperm : List.Perm
        (sortBusy (mergeBusy (get_client_calendar_events cal uid)
          (get_apexon_calendar_events cal uid)))
        (mergeBusy (get_client_calendar_events cal uid)
          (get_apexon_calendar_events cal uid)) :=
      List.perm_insertionSort busyLE _
    have hS : (sortBusy (mergeBusy (get_client_calendar_events cal uid)
        (get_apexon_calendar_events cal uid))).Pairwise busyLE :=
      List.sorted_insertionSort busyLE _
    have hSdisj : (sortBusy (mergeBusy (get_client_calendar_events cal uid)
        (get_apexon_calendar_events cal uid))).Pairwise
        (fun a b => ¬ pairOverlap a b) :=
      (hperm.pairwise_iff (fun h => pairOverlap_symm h)).mpr hBdisj
    have hSne : ∀ p ∈ sortBusy (mergeBusy (get_client_calendar_events cal uid)
        (get_apexon_calendar_events cal uid)), p.1 < p.2 :=
      fun p hp => hBne p (hperm.mem_iff.mp hp)
    have hday := fun d => dayFreeSlots_props uid manager.location_timezone bhs bhe
      rs re (sortBusy (mergeBusy (get_client_calendar_events cal uid)
        (get_apexon_calendar_events cal uid))) d hS hSdisj hSne
    constructor
    · rw [List.pairwise_flatMap]
      constructor
      · intro d _
        refine ((hday d).2.2).imp ?_
        intro a b hab
        unfold slotOverlap
        omega
      · refine (dayRange_pairwise_lt _ _).imp ?_
        intro d d2 hdd
        intro x hx y hy
        have hxb := ((hday d).1 x hx).2.2
        have hyb := ((hday d2).1 y hy).1
        have h1 : x.stop ≤ d * 1440 + bhe * 60 - manager.location_timezone :=
          le_trans hxb (min_le_left _ _)
        have h2 : d2 * 1440 + bhs * 60 - manager.location_timezone ≤ y.start :=
          le_trans (le_max_left _ _) hyb
        unfold slotOverlap
        intro hov
        omega
    · intro f hf p hp
      rw [List.mem_flatMap] at hf
      obtain ⟨d, hd, hf⟩ := hf
      exact (hday d).2.1 f hf p (hperm.mem_iff.mpr hp)

/-- Witness for C3 at a concrete input: the two-apexon-event calendar satisfies the
hypotheses (non-empty events, no client events) and the returned free slots are
pairwise disjoint. -/
theorem get_merged_availability_disjoint_witness :
    ((∀ e ∈ calTwoApexon "m", e.start < e.stop) ∧
        (get_client_calendar_events calTwoApexon "m").Pairwise
          (fun a b => ¬ eventOverlap a b) ∧ (0 : Int) ≤ 9 ∧ (18 : Int) ≤ 24) ∧
      (get_merged_availability dcMgr calTwoApexon "m" 15840 17279 9 18).Pairwise
        (fun a b => ¬ slotOverlap a b) :=
  ⟨⟨by decide, by decide, by decide, by decide⟩,
    (get_merged_availability_disjoint dcMgr calTwoApexon "m" 15840 17279 9 18
      (by decide) (by decide) (by decide) (by decide)).1⟩

/-! ## C10: the candidate availability consults no calendar source -/

theorem get_merged_availability_congr (dc : DataClient) (cal cal2 : CalendarStore)
    (pid : String) (h : cal pid = cal2 pid) (sdt edt bhs bhe : Int) :
    get_merged_availability dc cal pid sdt edt bhs bhe =
      get_merged_availability dc cal2 pid sdt edt bhs bhe := by
  unfold get_merged_availability get_client_calendar_events get_apexon_calendar_events
  rw [h]

theorem managerAvail_fold_congr (dc : DataClient) (cal cal2 : CalendarStore)
    (cid : String) (sdt edt bhs bhe : Int)
    (hagree : ∀ u, u ≠ cid → cal u = cal2 u) :
    ∀ (l : List String) (m : List (String × List TimeSlot)),
      l.foldl (fun m2 manager_id => if manager_id = cid then m2
        else match dc.get_manager_by_id manager_id with
          | none => m2
          | some _ => updateAssoc m2 manager_id
              (get_merged_availability dc cal manager_id sdt edt bhs bhe)) m =
      l.foldl (fun m2 manager_id => if manager_id = cid then m2
        else match dc.get_manager_by_id manager_id with
          | none => m2
          | some _ => updateAssoc m2 manager_id
              (get_merged_availability dc cal2 manager_id sdt edt bhs bhe)) m := by
  intro l
  induction l with
  | nil => intro m; rfl
  | cons x xs ih =>
    intro m
    rw [List.foldl_cons, List.foldl_cons]
    have hacc : (if x = cid then m
        else match dc.get_manager_by_id x with
          | none => m
          | some _ => updateAssoc m x
              (get_merged_availability dc cal x sdt edt bhs bhe)) =
        (if x = cid then m
        else match dc.get_manager_by_id x with
          | none => m
          | some _ => updateAssoc m x
              (get_merged_availability dc cal2 x sdt edt bhs bhe)) := by
      by_cases hx : x = cid
      · simp [hx]
      · simp only [if_neg hx]
        cases hl : dc.get_manager_by_id x
        · rfl
        · simp only []
          rw [get_merged_availability_congr dc cal cal2 x (hagree x hx)]
    rw [hacc]
    exact ih _

/-- C10: the candidate free-time computation never consults a calendar source: two
calendar stores that agree on every user other than the request subject produce
identical proposals (so the subject busy events never affect the output), and the
subject availability is exactly one slot per local weekday, covering the full
business-hours window clamped to the requested range. -/
theorem candidate_calendar_noninterference :
    (∀ (dc : DataClient) (request : MeetingRequest) (bhs bhe : Int)
        (sOpt eOpt : Option Int) (db da : Int) (mp : Nat) (today : Int)
        (cal cal2 : CalendarStore),
      (∀ u, u ≠ request.candidate_id → cal u = cal2 u) →
      find_meeting_proposals dc cal request bhs bhe sOpt eOpt db da mp today =
        find_meeting_proposals dc cal2 request bhs bhe sOpt eOpt db da mp today) ∧
    (∀ (cand : Candidate) (sdt edt bhs bhe : Int) (slot : TimeSlot),
      slot ∈ get_candidate_availability cand sdt edt bhs bhe ↔
      ∃ d ∈ dayRange (dateOf sdt) (dateOf edt), weekday d < 5 ∧
        max (d * 1440 + bhs * 60 - cand.location_timezone) sdt <
          min (d * 1440 + bhe * 60 - cand.location_timezone) edt ∧
        slot = TimeSlot.mk (max (d * 1440 + bhs * 60 - cand.location_timezone) sdt)
          (min (d * 1440 + bhe * 60 - cand.location_timezone) edt) [cand.id]
          (some "candidate_business_hours")) := by
  constructor
  · intro dc request bhs bhe sOpt eOpt db da mp today cal cal2 hagree
    unfold find_meeting_proposals
    cases hc : dc.get_candidate_by_id request.candidate_id with
    | none => rfl
    | some cand =>
      dsimp only
      rw [managerAvail_fold_congr dc cal cal2 request.candidate_id _ _ bhs bhe hagree
        request.participants []]
  · intro cand sdt edt bhs bhe slot
    unfold get_candidate_availability
    rw [List.mem_filterMap]
    constructor
    · rintro ⟨d, hd, hf⟩
      dsimp only at hf
      split_ifs at hf with h1 h2
      exact ⟨d, hd, h1, h2, (Option.some.inj hf).symm⟩
    · rintro ⟨d, hd, h1, h2, rfl⟩
      refine ⟨d, hd, ?_⟩
      dsimp only
      rw [if_pos h1, if_pos h2]

/-- Witness for C10: giving the candidate a busy event changes nothing in the
proposals, since the two stores agree on every other user. -/
theorem candidate_calendar_noninterference_witness :
    find_meeting_proposals dcCand calEmpty reqNoParticipants 9 18 (some 11) (some 12)
        3 7 5 11 =
      find_meeting_proposals dcCand calCandBusy reqNoParticipants 9 18 (some 11)
        (some 12) 3 7 5 11 :=
  candidate_calendar_noninterference.1 dcCand reqNoParticipants 9 18 (some 11)
    (some 12) 3 7 5 11 calEmpty calCandBusy
    (fun u hu => by
      have hu2 : u ≠ "cand" := by simpa [reqNoParticipants] using hu
      simp [calEmpty, calCandBusy, hu2])

/-! ## C9: unknown participants are silently skipped -/

theorem foldl_filter_skip {α β : Type} [DecidableEq α] (g : β → α → β) (bad : α)
    (hskip : ∀ m, g m bad = m) :
    ∀ (l : List α) (m : β),
      (l.filter (fun p => decide (p ≠ bad))).foldl g m = l.foldl g m := by
  intro l
  induction l with
  | nil => intro m; rfl
  | cons x xs ih =>
    intro m
    by_cases hx : x = bad
    · have hfb : List.filter (fun p => decide (p ≠ bad)) (x :: xs) =
          List.filter (fun p => decide (p ≠ bad)) xs := by simp [hx]
      rw [hfb, List.foldl_cons, hx, hskip m]
      exact ih m
    · have hfk : List.filter (fun p => decide (p ≠ bad)) (x :: xs) =
          x :: List.filter (fun p => decide (p ≠ bad)) xs := by simp [hx]
      rw [hfk, List.foldl_cons, List.foldl_cons]
      exact ih (g m x)

theorem foldl_const_of_skip {α β : Type} (g : β → α → β) :
    ∀ (l : List α), (∀ (m : β), ∀ x ∈ l, g m x = m) → ∀ m, l.foldl g m = m := by
  intro l
  induction l with
  | nil => intro _ m; rfl
  | cons x xs ih =>
    intro h m
    rw [List.foldl_cons, h m x (List.mem_cons_self x xs)]
    exact ih (fun m2 y hy => h m2 y (List.mem_cons_of_mem _ hy)) m

theorem participantCheck_skip (dc : DataClient) (cand : Candidate) (t bhs bhe : Int)
    (bad : String) (hbad : dc.get_manager_by_id bad = none) (hne : bad ≠ cand.id) :
    ∀ acc, participantCheck dc cand t bhs bhe acc bad = acc := by
  intro acc
  unfold participantCheck
  simp only [if_neg hne, hbad]

theorem create_proposal_parts_congr (dc : DataClient) (slot : TimeSlot)
    (request : MeetingRequest) (cand : Candidate) (parts parts2 : List String)
    (bhs bhe : Int)
    (h : ∀ acc : Int × List String,
      parts.foldl (participantCheck dc cand slot.start bhs bhe) acc =
        parts2.foldl (participantCheck dc cand slot.start bhs bhe) acc) :
    create_proposal dc slot request cand parts bhs bhe =
      create_proposal dc slot request cand parts2 bhs bhe := by
  unfold create_proposal
  dsimp only
  rw [h]

/-- C9: a participant id with no directory entry is silently skipped before
intersection: the proposals are identical to those of the same request with that
participant removed; and when every requested participant is unknown or is the subject
itself, the proposals equal those of the request with no participants at all, i.e.
they are computed from the candidate availability alone. (Both parts assume the
directory is consistent: a successful candidate lookup returns a record whose id field
equals the looked-up key, as the data client caches guarantee.) -/
theorem unknown_participant_skipped :
    (∀ (dc : DataClient) (cal : CalendarStore) (request : MeetingRequest)
        (bad : String) (bhs bhe : Int) (sOpt eOpt : Option Int) (db da : Int)
        (mp : Nat) (today : Int),
      dc.get_manager_by_id bad = none →
      (∀ c, dc.get_candidate_by_id request.candidate_id = some c →
        c.id = request.candidate_id) →
      find_meeting_proposals dc cal request bhs bhe sOpt eOpt db da mp today =
        find_meeting_proposals dc cal
          { request with participants :=
              request.participants.filter (fun p => decide (p ≠ bad)) }
          bhs bhe sOpt eOpt db da mp today) ∧
    (∀ (dc : DataClient) (cal : CalendarStore) (request : MeetingRequest)
        (bhs bhe : Int) (sOpt eOpt : Option Int) (db da : Int) (mp : Nat)
        (today : Int),
      (∀ p ∈ request.participants, p = request.candidate_id ∨
        dc.get_manager_by_id p = none) →
      (∀ c, dc.get_candidate_by_id request.candidate_id = some c →
        c.id = request.candidate_id) →
      find_meeting_proposals dc cal request bhs bhe sOpt eOpt db da mp today =
        find_meeting_proposals dc cal { request with participants := [] }
          bhs bhe sOpt eOpt db da mp today) := by
  constructor
  · intro dc cal request bad bhs bhe sOpt eOpt db da mp today hbad hid
    unfold find_meeting_proposals
    dsimp only
    cases hc : dc.get_candidate_by_id request.candidate_id with
    | none => rfl
    | some cand =>
      dsimp only
      have hcid : cand.id = request.candidate_id := hid cand hc
      have hskipM : ∀ m : List (String × List TimeSlot),
          (if bad = request.candidate_id then m
            else match dc.get_manager_by_id bad with
              | none => m
              | some _ => updateAssoc m bad (get_merged_availability dc cal bad
                  ((computeWindow today cand.start_date sOpt eOpt db da).1 * 1440)
                  ((computeWindow today cand.start_date sOpt eOpt db da).2 * 1440 +
                    1439) bhs bhe)) = m := by
        intro m
        by_cases hx : bad = request.candidate_id
        · simp [hx]
        · simp [hx, hbad]
      have hF := foldl_filter_skip
        (fun m2 manager_id => if manager_id = request.candidate_id then m2
          else match dc.get_manager_by_id manager_id with
            | none => m2
            | some _ => updateAssoc m2 manager_id
                (get_merged_availability dc cal manager_id
                  ((computeWindow today cand.start_date sOpt eOpt db da).1 * 1440)
                  ((computeWindow today cand.start_date sOpt eOpt db da).2 * 1440 +
                    1439) bhs bhe)) bad hskipM request.participants []
      rw [hF]
      have hparts : ∀ (t : Int) (acc : Int × List String),
          ((request.candidate_id :: (request.participants.filter
              (fun p => decide (p ≠ bad))).filter
              (fun p => decide (p ≠ request.candidate_id))).foldl
            (participantCheck dc cand t bhs bhe) acc) =
          ((request.candidate_id :: request.participants.filter
              (fun p => decide (p ≠ request.candidate_id))).foldl
            (participantCheck dc cand t bhs bhe) acc) := by
        intro t acc
        rw [List.foldl_cons, List.foldl_cons]
        by_cases hx : bad = request.candidate_id
        · have hff : (request.participants.filter (fun p => decide (p ≠ bad))).filter
              (fun p => decide (p ≠ request.candidate_id)) =
              request.participants.filter
                (fun p => decide (p ≠ request.candidate_id)) := by
            rw [hx, List.filter_filter]
            apply List.filter_congr
            intro a _
            rw [Bool.and_self]
          rw [hff]
        · have hcomm : (request.participants.filter
              (fun p => decide (p ≠ bad))).filter
              (fun p => decide (p ≠ request.candidate_id)) =
              (request.participants.filter
                (fun p => decide (p ≠ request.candidate_id))).filter
                (fun p => decide (p ≠ bad)) := by
            rw [List.filter_filter, List.filter_filter]
            apply List.filter_congr
            intro a _
            rw [Bool.and_comm]
          rw [hcomm]
          exact foldl_filter_skip (participantCheck dc cand t bhs bhe) bad
            (participantCheck_skip dc cand t bhs bhe bad hbad
              (fun h => hx (h ▸ hcid ▸ rfl)))
            (request.participants.filter (fun p => decide (p ≠ request.candidate_id)))
            (participantCheck dc cand t bhs bhe acc request.candidate_id)
      have hmap : (fun slot => create_proposal dc slot
          { request with participants :=
              request.participants.filter (fun p => decide (p ≠ bad)) } cand
          (request.candidate_id :: (request.participants.filter
            (fun p => decide (p ≠ bad))).filter
            (fun p => decide (p ≠ request.candidate_id))) bhs bhe) =
          (fun slot => create_proposal dc slot request cand
            (request.candidate_id :: request.participants.filter
              (fun p => decide (p ≠ request.candidate_id))) bhs bhe) := by
        funext slot
        have h1 : create_proposal dc slot
            { request with participants :=
                request.participants.filter (fun p => decide (p ≠ bad)) } cand
            (request.candidate_id :: (request.participants.filter
              (fun p => decide (p ≠ bad))).filter
              (fun p => decide (p ≠ request.candidate_id))) bhs bhe =
            create_proposal dc slot request cand
            (request.candidate_id :: (request.participants.filter
              (fun p => decide (p ≠ bad))).filter
              (fun p => decide (p ≠ request.candidate_id))) bhs bhe := rfl
        rw [h1]
        exact create_proposal_parts_congr dc slot request cand _ _ bhs bhe
          (fun acc => hparts slot.start acc)
      rw [hmap]
  · intro dc cal request bhs bhe sOpt eOpt db da mp today hall hid
    unfold find_meeting_proposals
    dsimp only
    cases hc : dc.get_candidate_by_id request.candidate_id with
    | none => rfl
    | some cand =>
      dsimp only
      have hcid : cand.id = request.candidate_id := hid cand hc
      have hF : request.participants.foldl
          (fun m2 manager_id => if manager_id = request.candidate_id then m2
            else match dc.get_manager_by_id manager_id with
              | none => m2
              | some _ => updateAssoc m2 manager_id
                  (get_merged_availability dc cal manager_id
                    ((computeWindow today cand.start_date sOpt eOpt db da).1 * 1440)
                    ((computeWindow today cand.start_date sOpt eOpt db da).2 * 1440 +
                      1439) bhs bhe))
          ([] : List (String × List TimeSlot)) = [] := by
        apply foldl_const_of_skip _ request.participants
        intro m x hx
        rcases hall x hx with hxc | hxn
        · simp [hxc]
        · by_cases hxc : x = request.candidate_id
          · simp [hxc]
          · simp [hxc, hxn]
      rw [hF]
      simp only [List.foldl_nil, List.filter_nil]
      have hparts : ∀ (t : Int) (acc : Int × List String),
          ((request.candidate_id :: request.participants.filter
              (fun p => decide (p ≠ request.candidate_id))).foldl
            (participantCheck dc cand t bhs bhe) acc) =
          ([request.candidate_id].foldl (participantCheck dc cand t bhs bhe) acc) := by
        intro t acc
        rw [List.foldl_cons, List.foldl_cons, List.foldl_nil]
        apply foldl_const_of_skip
        intro m x hx
        rw [List.mem_filter, decide_eq_true_eq] at hx
        rcases hall x hx.1 with hxc | hxn
        · exact absurd hxc hx.2
        · exact participantCheck_skip dc cand t bhs bhe x hxn
            (fun h => hx.2 (h ▸ hcid ▸ rfl)) m
      have hmap : (fun slot => create_proposal dc slot
          { request with participants := ([] : List String) } cand
          [request.candidate_id] bhs bhe) =
          (fun slot => create_proposal dc slot request cand
            (request.candidate_id :: request.participants.filter
              (fun p => decide (p ≠ request.candidate_id))) bhs bhe) := by
        funext slot
        have h1 : create_proposal dc slot
            { request with participants := ([] : List String) } cand
            [request.candidate_id] bhs bhe =
            create_proposal dc slot request cand [request.candidate_id] bhs bhe := rfl
        rw [h1]
        exact (create_proposal_parts_congr dc slot request cand _ _ bhs bhe
          (fun acc => hparts slot.start acc)).symm
      rw [hmap]

/-- Witness for C9 at a concrete input: removing the unknown participant "ghost"
leaves the proposals unchanged. -/
theorem unknown_participant_skipped_witness :
    find_meeting_proposals dcCand calEmpty reqGhost 9 18 (some 11) (some 12) 3 7 5
        11 =
      find_meeting_proposals dcCand calEmpty
        { reqGhost with participants :=
            reqGhost.participants.filter (fun p => decide (p ≠ "ghost")) }
        9 18 (some 11) (some 12) 3 7 5 11 :=
  unknown_participant_skipped.1 dcCand calEmpty reqGhost "ghost" 9 18 (some 11)
    (some 12) 3 7 5 11 rfl
    (by
      intro c h
      have heval : dcCand.get_candidate_by_id reqGhost.candidate_id =
          some (Candidate.mk "cand" 0 11) := by decide
      rw [heval] at h
      have h3 : c = Candidate.mk "cand" 0 11 := (Option.some.inj h).symm
      rw [h3]
      rfl)
